import Mathlib

/-!
A shallow embedding of `dobss.py`, a DOBSS (Decomposed Optimal Bayesian
Stackelberg Solver) MILP builder written against the PuLP library, together
with proofs checking the natural-language specification against it.

Python floats are modelled as rationals, PuLP variables as an inductive type
carrying the index path under which `pulp.LpVariable.dicts` created them,
and the nested dictionaries produced by `LpVariable.dicts` as partial lookup
functions (`Option`-valued), so that a `KeyError` on a missing key is
`none`.  A raising Python call is modelled with `Except`/`Option`.
-/

/-- `LARGE_POSITIVE_NUMBER = M = 1000000` from the source. -/
def M : ℚ := 1000000

/-- The `Problem` class: dimensions, payoff tensors and type probabilities,
exactly the fields assigned in `Problem.__init__`. -/
structure Problem where
  L : Nat
  J : Nat
  I : Nat
  P : List ℚ
  R : List (List (List ℚ))
  C : List (List (List ℚ))
deriving DecidableEq

/-- `Problem.__init__(followersTypesCnt, followersStrategiesCnt,
leaderStrategiesCnt, P, R, C)`: the body only assigns the six attributes;
there is no validation and no raise statement, so the translation always
returns `Except.ok` with the arguments stored verbatim. -/
def problemInit (followersTypesCnt followersStrategiesCnt leaderStrategiesCnt : Nat)
    (P : List ℚ) (R : List (List (List ℚ))) (C : List (List (List ℚ))) :
    Except (List Char) Problem :=
  Except.ok
    { L := followersTypesCnt
      J := followersStrategiesCnt
      I := leaderStrategiesCnt
      R := R
      C := C
      P := P }

/-- A PuLP decision variable, identified by the index path under which
`LpVariable.dicts` created it: `z_s` paths are three deep, `q_s` two, `a_s`
one. -/
inductive Var where
  | z (a b c : Nat)
  | q (a b : Nat)
  | a (a : Nat)
deriving DecidableEq

/-- Decimal digit to character, as Python's integer formatting produces. -/
def digitChar (d : Nat) : Char :=
  if d = 0 then '0' else if d = 1 then '1' else if d = 2 then '2'
  else if d = 3 then '3' else if d = 4 then '4' else if d = 5 then '5'
  else if d = 6 then '6' else if d = 7 then '7' else if d = 8 then '8'
  else '9'

/-- Fuel-driven decimal rendering (most significant digit first). -/
def natCharsAux : Nat → Nat → List Char
  | 0, _ => []
  | fuel + 1, n =>
    if n < 10 then [digitChar n]
    else natCharsAux fuel (n / 10) ++ [digitChar (n % 10)]

/-- Decimal rendering of a natural number, as Python's `'%s' % n`. -/
def natChars (n : Nat) : List Char := natCharsAux (n + 1) n

/-- The generated PuLP variable name: `LpVariable.dicts` was given the
format strings `'z_%s_%s_%s'`, `'q_%s_%s'` and `'a_%s'` and fills them with
the index path of the entry. -/
def varName : Var → List Char
  | Var.z a b c =>
      'z' :: '_' :: (natChars a ++ '_' :: (natChars b ++ '_' :: natChars c))
  | Var.q a b => 'q' :: '_' :: (natChars a ++ '_' :: natChars b)
  | Var.a a => 'a' :: '_' :: natChars a

/-- Lookup in the nested dictionary `z_s`, which `model` allocates with
index lists `range(L)`, `range(J)`, `range(I)` (in that order, see the
source lines 111-117).  A path outside those ranges is a `KeyError`,
modelled as `none`. -/
def zLook (p : Problem) (a b c : Nat) : Option Var :=
  if a < p.L ∧ b < p.J ∧ c < p.I then some (Var.z a b c) else none

/-- Lookup in the nested dictionary `q_s`, allocated over `range(L)`,
`range(J)`. -/
def qLook (p : Problem) (a b : Nat) : Option Var :=
  if a < p.L ∧ b < p.J then some (Var.q a b) else none

/-- Lookup in the dictionary `a_s`, allocated over `range(L)`. -/
def aLook (p : Problem) (a : Nat) : Option Var :=
  if a < p.L then some (Var.a a) else none

/-- One linear term `coeff * var` of a PuLP affine expression. -/
structure LinTerm where
  coeff : ℚ
  var : Var
deriving DecidableEq

/-- A PuLP `LpAffineExpression`: a list of linear terms plus a constant. -/
structure Affine where
  terms : List LinTerm
  const : ℚ
deriving DecidableEq

/-- Comparison sense of a PuLP constraint. -/
inductive CmpRel where
  | le
  | eq
  | ge
deriving DecidableEq

/-- A named PuLP constraint `lhs rel rhs`. -/
structure Constr where
  lhs : Affine
  rel : CmpRel
  rhs : Affine
  cname : List Char
deriving DecidableEq

/-- The assembled `LpProblem`: its name, sense (`LpMaximize`), objective
expression (with the name it was added under) and the constraints in the
order they were added. -/
structure Model where
  pname : List Char
  maximize : Bool
  objName : List Char
  objTerms : List LinTerm
  constraints : List Constr
deriving DecidableEq

/-- `mapM` over `Option` written as plain structural recursion: the loop
stops with `none` at the first failing element, as a Python loop raising
`KeyError` would. -/
def optMap (f : α → Option β) : List α → Option (List β)
  | [] => some []
  | x :: xs =>
    match f x with
    | none => none
    | some y =>
      match optMap f xs with
      | none => none
      | some ys => some (y :: ys)

/-- The flat index list of the nested loop `for i in range(a) for j in
range(b)` in iteration order. -/
def pairs (a b : Nat) : List (Nat × Nat) :=
  (List.range a).flatMap fun i => (List.range b).map fun j => (i, j)

/-- The flat index list of `for i in range(a) for j in range(b) for l in
range(c)` in iteration order. -/
def triples (a b c : Nat) : List (Nat × Nat × Nat) :=
  (pairs a b).flatMap fun ij => (List.range c).map fun l => (ij.1, ij.2, l)

/-- `p.P[l]` (in range whenever `len(P) = L` and `l < L`). -/
def pGet (p : Problem) (l : Nat) : ℚ := p.P.getD l 0

/-- `p.R[l][i][j]`. -/
def rGet (p : Problem) (l i j : Nat) : ℚ :=
  ((p.R.getD l []).getD i []).getD j 0

/-- `p.C[l][i][j]`. -/
def cGet (p : Problem) (l i j : Nat) : ℚ :=
  ((p.C.getD l []).getD i []).getD j 0

/-- `__objective_function` (enumeration index 1): the expression
`lpSum(p.P[l] * p.R[l][i][j] * z_s[l][i][j] for i in range(p.I) for j in
range(p.J) for l in range(p.L))`, threading the `z_s` dictionary lookups. -/
def objectiveTerms (p : Problem) : Option (List LinTerm) :=
  optMap
    (fun t =>
      match t with
      | (i, j, l) => (zLook p l i j).map fun w => ⟨pGet p l * rGet p l i j, w⟩)
    (triples p.I p.J p.L)

/-- Name of the objective expression: `'({}) objective function'.format(1)`. -/
def objectiveName : List Char := "(1) objective function".data

/-- Constraint name built by `__sum_of_zs`. -/
def name2 (l : Nat) : List Char :=
  "(2) sum of z[i, j] for given l (".data ++ natChars l ++ ") == 1".data

/-- `__sum_of_zs` (index 2): for every `l`,
`lpSum(z_s[l][i][j] for i in range(p.I) for j in range(p.J)) == 1`. -/
def sumOfZs (p : Problem) : Option (List Constr) :=
  optMap
    (fun l =>
      (optMap (fun ij => (zLook p l ij.1 ij.2).map fun w => LinTerm.mk 1 w)
          (pairs p.I p.J)).map
        fun ts => ⟨⟨ts, 0⟩, CmpRel.eq, ⟨[], 1⟩, name2 l⟩)
    (List.range p.L)

/-- Constraint name built by `__zs_sum_by_j_lt_1`. -/
def name3 (i l : Nat) : List Char :=
  "(3) sum of z for given i, l (".data ++ natChars i ++ ", ".data ++
    natChars l ++ ") <= 1".data

/-- `__zs_sum_by_j_lt_1` (index 3): for every `l` and `i`,
`lpSum(z_s[l][i][j] for j in range(p.J)) <= 1`. -/
def zsSumByJ (p : Problem) : Option (List Constr) :=
  optMap
    (fun li =>
      (optMap (fun j => (zLook p li.1 li.2 j).map fun w => LinTerm.mk 1 w)
          (List.range p.J)).map
        fun ts => ⟨⟨ts, 0⟩, CmpRel.le, ⟨[], 1⟩, name3 li.2 li.1⟩)
    (pairs p.L p.I)

/-- Constraint names built by `__zs_sum_by_i_lt_1_gt_q`. -/
def name4a (j l : Nat) : List Char :=
  "(4) sum of z for given j, l (".data ++ natChars j ++ ", ".data ++
    natChars l ++ ") <= 1".data

/-- Second constraint name of `__zs_sum_by_i_lt_1_gt_q`. -/
def name4b (j l : Nat) : List Char :=
  "(4) sum of z for given j, l (".data ++ natChars j ++ ", ".data ++
    natChars l ++ ") >= q".data

/-- `__zs_sum_by_i_lt_1_gt_q` (index 4): for every `l` and `j`, the two
constraints `lpSum(z_s[l][i][j] for i in range(p.I)) <= 1` and
`lpSum(z_s[l][i][j] for i in range(p.I)) >= q_s[l][j]`, in that order. -/
def zsSumByI (p : Problem) : Option (List Constr) :=
  (optMap
    (fun lj =>
      match optMap (fun i => (zLook p lj.1 i lj.2).map fun w => LinTerm.mk 1 w)
          (List.range p.I) with
      | none => none
      | some ts =>
        match qLook p lj.1 lj.2 with
        | none => none
        | some qv =>
          some [⟨⟨ts, 0⟩, CmpRel.le, ⟨[], 1⟩, name4a lj.2 lj.1⟩,
                ⟨⟨ts, 0⟩, CmpRel.ge, ⟨[LinTerm.mk 1 qv], 0⟩, name4b lj.2 lj.1⟩])
    (pairs p.L p.J)).map List.flatten

/-- Constraint name built by `__qs_sum_eq_1`. -/
def name5 (l : Nat) : List Char :=
  "(5) sum of q for given l (".data ++ natChars l ++ ") == 1".data

/-- `__qs_sum_eq_1` (index 5): for every `l`,
`lpSum(q_s[l][j] for j in range(p.J)) == 1`. -/
def qsSumEq1 (p : Problem) : Option (List Constr) :=
  optMap
    (fun l =>
      (optMap (fun j => (qLook p l j).map fun w => LinTerm.mk 1 w)
          (List.range p.J)).map
        fun ts => ⟨⟨ts, 0⟩, CmpRel.eq, ⟨[], 1⟩, name5 l⟩)
    (List.range p.L)

/-- Constraint names built by `__most_complex_one`. -/
def name6a (j l : Nat) : List Char :=
  "(6) j,l (".data ++ natChars j ++ ", ".data ++ natChars l ++
    ") <= complex".data

/-- Second constraint name of `__most_complex_one`. -/
def name6b (j l : Nat) : List Char :=
  "(6) j,l (".data ++ natChars j ++ ", ".data ++ natChars l ++
    ") <= complex <=".data

/-- `__most_complex_one` (index 6): for every `l` and `j`, the two
constraints
`(a_s[l] - lpSum(p.C[l][i][j] * lpSum(z_s[l][i][h] for h in range(p.J)) for
i in range(p.I))) >= 0` and the same left-hand side
`<= ((1 - q_s[l][j]) * M)`, in that order.  The left-hand side flattens to
the term `1 * a_s[l]` followed by the terms `-C[l][i][j] * z_s[l][i][h]`
for `i` then `h` in iteration order; the right-hand side of the second
constraint is the affine expression `M - M * q_s[l][j]`. -/
def mostComplexOne (p : Problem) : Option (List Constr) :=
  (optMap
    (fun lj =>
      match aLook p lj.1 with
      | none => none
      | some av =>
        match optMap
            (fun ih =>
              (zLook p lj.1 ih.1 ih.2).map fun w =>
                LinTerm.mk (-(cGet p lj.1 ih.1 lj.2)) w)
            (pairs p.I p.J) with
        | none => none
        | some ts =>
          match qLook p lj.1 lj.2 with
          | none => none
          | some qv =>
            some [⟨⟨LinTerm.mk 1 av :: ts, 0⟩, CmpRel.ge, ⟨[], 0⟩,
                    name6a lj.2 lj.1⟩,
                  ⟨⟨LinTerm.mk 1 av :: ts, 0⟩, CmpRel.le,
                    ⟨[LinTerm.mk (-M) qv], M⟩, name6b lj.2 lj.1⟩])
    (pairs p.L p.J)).map List.flatten

/-- Constraint name built by `__zs_same_in_row`. -/
def name7 (i l : Nat) : List Char :=
  "(7) i,l (".data ++ natChars i ++ ", ".data ++ natChars l ++
    ")zs same in row".data

/-- `__zs_same_in_row` (index 7): for every `l` and `i`,
`lpSum(z_s[l][i][j] for j in range(p.J)) == lpSum(z_s[1][i][j] for j in
range(p.J))` — note the hard-coded reference index `1` on the right. -/
def zsSameInRow (p : Problem) : Option (List Constr) :=
  optMap
    (fun li =>
      match optMap (fun j => (zLook p li.1 li.2 j).map fun w => LinTerm.mk 1 w)
          (List.range p.J) with
      | none => none
      | some ts =>
        match optMap (fun j => (zLook p 1 li.2 j).map fun w => LinTerm.mk 1 w)
            (List.range p.J) with
        | none => none
        | some ts1 =>
          some ⟨⟨ts, 0⟩, CmpRel.eq, ⟨ts1, 0⟩, name7 li.2 li.1⟩)
    (pairs p.L p.I)

/-- `model(p)`: allocates the variable dictionaries, declares the
maximization problem `'DOBSS'`, and runs the seven attached functions in
enumeration order — the objective first, then the six constraint families
appended in order.  Any dictionary `KeyError` aborts the build (`none`). -/
def model (p : Problem) : Option Model :=
  match objectiveTerms p with
  | none => none
  | some obj =>
    match sumOfZs p with
    | none => none
    | some c2 =>
      match zsSumByJ p with
      | none => none
      | some c3 =>
        match zsSumByI p with
        | none => none
        | some c4 =>
          match qsSumEq1 p with
          | none => none
          | some c5 =>
            match mostComplexOne p with
            | none => none
            | some c6 =>
              match zsSameInRow p with
              | none => none
              | some c7 =>
                some ⟨"DOBSS".data, true, objectiveName, obj,
                      c2 ++ c3 ++ c4 ++ c5 ++ c6 ++ c7⟩

/-- The tensor `t` has shape `a × b × c`: length `a`, every row length `b`,
every entry of a row length `c` (spec §3: `R`, `C` fully populated). -/
def tensorDims (t : List (List (List ℚ))) (a b c : Nat) : Prop :=
  t.length = a ∧ ∀ x ∈ t, x.length = b ∧ ∀ y ∈ x, y.length = c

instance (t : List (List (List ℚ))) (a b c : Nat) :
    Decidable (tensorDims t a b c) := by
  unfold tensorDims; infer_instance

/-- Modelled from the spec: the validation §4.1 prescribes for `create`
(`L,J,I` positive, `len(P) = L`, probabilities in `[0,1]` summing to 1
within tolerance `1e-6`, `R`/`C` of shape `L×I×J`).  `dobss.py` itself
contains no such check; this predicate expresses the spec's notion of a
valid `GameSpec` so that claims quantified over valid specs can be
stated. -/
def validSpec (p : Problem) : Prop :=
  0 < p.L ∧ 0 < p.J ∧ 0 < p.I ∧
  p.P.length = p.L ∧ (∀ x ∈ p.P, 0 ≤ x ∧ x ≤ 1) ∧
  |p.P.sum - 1| ≤ 1 / 1000000 ∧
  tensorDims p.R p.L p.I p.J ∧ tensorDims p.C p.L p.I p.J

instance (p : Problem) : Decidable (validSpec p) := by
  unfold validSpec; infer_instance

/-- PuLP solve statuses (`pulp.LpStatus` keys). -/
inductive SolveStatus where
  | NotSolved
  | Optimal
  | Infeasible
  | Unbounded
  | Undefined
deriving DecidableEq

/-- The display string `pulp.LpStatus[status]`. -/
def statusName : SolveStatus → List Char
  | SolveStatus.NotSolved => "Not Solved".data
  | SolveStatus.Optimal => "Optimal".data
  | SolveStatus.Infeasible => "Infeasible".data
  | SolveStatus.Unbounded => "Unbounded".data
  | SolveStatus.Undefined => "Undefined".data

/-- The `Solution` class: keeps the objective value (which PuLP reports as
`None` when variables are unvalued, hence `Option`). -/
structure Solution where
  value : Option ℚ
deriving DecidableEq

/-- `Solution.__init__`: the `assert` admits `LpStatusNotSolved` as well as
`LpStatusOptimal`; any other status raises `AssertionError` with the
message `"problem is {status}"`, modelled as `Except.error`. -/
def solutionInit (status : SolveStatus) (objValue : Option ℚ) :
    Except (List Char) Solution :=
  if status = SolveStatus.NotSolved ∨ status = SolveStatus.Optimal then
    Except.ok ⟨objValue⟩
  else
    Except.error ("problem is ".data ++ statusName status)

/-- Evaluate a list of linear terms under a valuation of the variables. -/
def evalTerms (v : Var → ℚ) (ts : List LinTerm) : ℚ :=
  (ts.map fun t => t.coeff * v t.var).sum

/-- Evaluate an affine expression under a valuation. -/
def Affine.eval (v : Var → ℚ) (e : Affine) : ℚ := evalTerms v e.terms + e.const

/-- A constraint is satisfied by a valuation. -/
def constrHolds (v : Var → ℚ) (c : Constr) : Prop :=
  match c.rel with
  | CmpRel.le => c.lhs.eval v ≤ c.rhs.eval v
  | CmpRel.eq => c.lhs.eval v = c.rhs.eval v
  | CmpRel.ge => c.rhs.eval v ≤ c.lhs.eval v

instance (v : Var → ℚ) (c : Constr) : Decidable (constrHolds v c) := by
  unfold constrHolds; exact match c.rel with
  | CmpRel.le => inferInstance
  | CmpRel.eq => inferInstance
  | CmpRel.ge => inferInstance

/-- Python's `str.split('_')`: split a character list at every underscore
(consecutive underscores yield empty parts, like Python's `split` with an
explicit separator). -/
def splitUnd : List Char → List (List Char)
  | [] => [[]]
  | c :: rest =>
    if c = '_' then [] :: splitUnd rest
    else
      match splitUnd rest with
      | [] => [[c]]
      | part :: parts => (c :: part) :: parts

/-- The key the decoder in `main` extracts from a `z` variable:
`var.name.split('_')[2]`. -/
def nameKey (nm : List Char) : List Char := (splitUnd nm).getD 2 []

/-- One step of the decoding loop in `main` over `sol.milp.variables()`:
`if var.name[0] == 'z': if var.value() != 0: i = var.name.split('_')[2];
if i not in z_res: z_res[i] = var.value()`.  The dictionary `z_res` is the
association list `acc` (Python dicts preserve insertion order). -/
def decodeZStep (acc : List (List Char × ℚ)) (e : Var × ℚ) :
    List (List Char × ℚ) :=
  if (varName e.1).head? = some 'z' then
    if e.2 ≠ 0 then
      if (acc.lookup (nameKey (varName e.1))).isSome then acc
      else acc ++ [(nameKey (varName e.1), e.2)]
    else acc
  else acc

/-- The `z_res` dictionary `main` builds from the solved variables. -/
def decodeZ (entries : List (Var × ℚ)) : List (List Char × ℚ) :=
  entries.foldl decodeZStep []

/-- The value of the first entry the decoding loop would store under `key`:
the first variable in iteration order whose name begins with `'z'`, whose
value is nonzero and whose third name component is `key`. -/
def firstZ (key : List Char) : List (Var × ℚ) → Option ℚ
  | [] => none
  | e :: rest =>
    if (varName e.1).head? = some 'z' ∧ e.2 ≠ 0 ∧ nameKey (varName e.1) = key
    then some e.2
    else firstZ key rest

/-- Decimal value of a digit character (inverse of `digitChar`). -/
def digitVal (c : Char) : Nat :=
  if c = '0' then 0 else if c = '1' then 1 else if c = '2' then 2
  else if c = '3' then 3 else if c = '4' then 4 else if c = '5' then 5
  else if c = '6' then 6 else if c = '7' then 7 else if c = '8' then 8
  else 9

/-- Read a decimal character list back into a number (inverse of
`natChars`, used to show distinct indices give distinct name keys). -/
def parseNat (s : List Char) : Nat :=
  s.foldl (fun acc c => 10 * acc + digitVal c) 0

/-- The variables of the assembled model, in allocation order: exactly the
entries of the three dictionaries (`z_s` over `range(L) × range(J) ×
range(I)`, `q_s` over `range(L) × range(J)`, `a_s` over `range(L)`).  When
the build succeeds every one of them is referenced by some constraint, so
this is the variable set of the returned `LpProblem`. -/
def allVars (p : Problem) : List Var :=
  ((List.range p.L).flatMap fun l =>
    (List.range p.J).flatMap fun b => (List.range p.I).map fun c => Var.z l b c) ++
  ((List.range p.L).flatMap fun l =>
    (List.range p.J).map fun b => Var.q l b) ++
  (List.range p.L).map fun l => Var.a l

/-- Objective terms of a successful build, written without the `Option`
threading (equal to `objectiveTerms` when all lookups succeed). -/
def mkObjTerms (p : Problem) : List LinTerm :=
  (triples p.I p.J p.L).map fun t =>
    ⟨pGet p t.2.2 * rGet p t.2.2 t.1 t.2.1, Var.z t.2.2 t.1 t.2.1⟩

/-- Family 2 of a successful build. -/
def mkF2 (p : Problem) : List Constr :=
  (List.range p.L).map fun l =>
    ⟨⟨(pairs p.I p.J).map fun ij => LinTerm.mk 1 (Var.z l ij.1 ij.2), 0⟩,
      CmpRel.eq, ⟨[], 1⟩, name2 l⟩

/-- Family 3 of a successful build. -/
def mkF3 (p : Problem) : List Constr :=
  (pairs p.L p.I).map fun li =>
    ⟨⟨(List.range p.J).map fun j => LinTerm.mk 1 (Var.z li.1 li.2 j), 0⟩,
      CmpRel.le, ⟨[], 1⟩, name3 li.2 li.1⟩

/-- Family 4 of a successful build. -/
def mkF4 (p : Problem) : List Constr :=
  ((pairs p.L p.J).map fun lj =>
    [⟨⟨(List.range p.I).map fun i => LinTerm.mk 1 (Var.z lj.1 i lj.2), 0⟩,
       CmpRel.le, ⟨[], 1⟩, name4a lj.2 lj.1⟩,
     ⟨⟨(List.range p.I).map fun i => LinTerm.mk 1 (Var.z lj.1 i lj.2), 0⟩,
       CmpRel.ge, ⟨[LinTerm.mk 1 (Var.q lj.1 lj.2)], 0⟩,
       name4b lj.2 lj.1⟩]).flatten

/-- Family 5 of a successful build. -/
def mkF5 (p : Problem) : List Constr :=
  (List.range p.L).map fun l =>
    ⟨⟨(List.range p.J).map fun j => LinTerm.mk 1 (Var.q l j), 0⟩,
      CmpRel.eq, ⟨[], 1⟩, name5 l⟩

/-- Family 6 of a successful build. -/
def mkF6 (p : Problem) : List Constr :=
  ((pairs p.L p.J).map fun lj =>
    [⟨⟨LinTerm.mk 1 (Var.a lj.1) ::
        ((pairs p.I p.J).map fun ih =>
          LinTerm.mk (-(cGet p lj.1 ih.1 lj.2)) (Var.z lj.1 ih.1 ih.2)), 0⟩,
       CmpRel.ge, ⟨[], 0⟩, name6a lj.2 lj.1⟩,
     ⟨⟨LinTerm.mk 1 (Var.a lj.1) ::
        ((pairs p.I p.J).map fun ih =>
          LinTerm.mk (-(cGet p lj.1 ih.1 lj.2)) (Var.z lj.1 ih.1 ih.2)), 0⟩,
       CmpRel.le, ⟨[LinTerm.mk (-M) (Var.q lj.1 lj.2)], M⟩,
       name6b lj.2 lj.1⟩]).flatten

/-- Family 7 of a successful build: the right-hand side always refers to
type index `1`. -/
def mkF7 (p : Problem) : List Constr :=
  (pairs p.L p.I).map fun li =>
    ⟨⟨(List.range p.J).map fun j => LinTerm.mk 1 (Var.z li.1 li.2 j), 0⟩,
      CmpRel.eq,
      ⟨(List.range p.J).map fun j => LinTerm.mk 1 (Var.z 1 li.2 j), 0⟩,
      name7 li.2 li.1⟩

/-- The model a successful build returns (shown equal to `model p` whenever
`p.I = p.J` and `2 ≤ p.L`, the condition under which no lookup fails). -/
def mkModel (p : Problem) : Model :=
  ⟨"DOBSS".data, true, objectiveName, mkObjTerms p,
    mkF2 p ++ mkF3 p ++ mkF4 p ++ mkF5 p ++ mkF6 p ++ mkF7 p⟩

/-- The state-passing reading of `model`: the function reads the fields of
`p` and assigns nothing, so the `Problem` state after the call is the
`Problem` state before it. -/
def modelRun (p : Problem) : Option Model × Problem := (model p, p)

/-- A valid game spec (spec sizes `L=2, J=2, I=3`, `P=[1,0]`, zero
payoffs, tensors of shape `L×I×J = 2×3×2`) on which the build nevertheless
fails: the constraints index `z_s[l][i][j]` with `i` up to `I=3`, but the
dictionary's second index list is `range(J)=range(2)`. -/
def exC1 : Problem :=
  ⟨2, 2, 3, [1, 0],
    [[[0, 0], [0, 0], [0, 0]], [[0, 0], [0, 0], [0, 0]]],
    [[[0, 0], [0, 0], [0, 0]], [[0, 0], [0, 0], [0, 0]]]⟩

/-- The concrete `L=1` scenario of spec §8: `J=2, I=2`, `P=[1.0]`,
`R[0]=[[2,4],[1,3]]`, `C[0]=[[1,0],[0,1]]`.  `__zs_same_in_row` reads
`z_s[1]`, which does not exist when only type `0` is allocated. -/
def exC2 : Problem := ⟨1, 2, 2, [1], [[[2, 4], [1, 3]]], [[[1, 0], [0, 1]]]⟩

/-- A valid two-type square spec used to witness the conditional theorems:
`L=2, J=2, I=2`, `P=[1,0]`, zero payoffs. -/
def wp : Problem :=
  ⟨2, 2, 2, [1, 0],
    [[[0, 0], [0, 0]], [[0, 0], [0, 0]]],
    [[[0, 0], [0, 0]], [[0, 0], [0, 0]]]⟩

/-- A feasible valuation for the model built from `wp`: the leader plays
pure strategy `0`, every follower type best-responds with strategy `0`,
and every follower payoff is `0`. -/
def wv : Var → ℚ
  | Var.z _ b c => if b = 0 ∧ c = 0 then 1 else 0
  | Var.q _ b => if b = 0 then 1 else 0
  | Var.a _ => 0

/-- The solved-variable list handed to the decoding loop for the witness:
every variable of the model built from `wp`, with its `wv` value. -/
def wEntries : List (Var × ℚ) := (allVars wp).map fun w => (w, wv w)

lemma optMap_eq_map {α β : Type} {f : α → Option β} {g : α → β} :
    ∀ xs : List α, (∀ x ∈ xs, f x = some (g x)) → optMap f xs = some (xs.map g)
  | [], _ => rfl
  | x :: xs, h => by
    have hx : f x = some (g x) := h x (List.mem_cons_self x xs)
    have hxs : optMap f xs = some (xs.map g) :=
      optMap_eq_map xs fun y hy => h y (List.mem_cons_of_mem x hy)
    simp [optMap, hx, hxs]

lemma mem_pairs {a b : Nat} {x : Nat × Nat} :
    x ∈ pairs a b ↔ x.1 < a ∧ x.2 < b := by
  cases x with
  | mk i j => simp [pairs, List.mem_flatMap, List.mem_map, List.mem_range]

lemma mem_triples {a b c : Nat} {x : Nat × Nat × Nat} :
    x ∈ triples a b c ↔ x.1 < a ∧ x.2.1 < b ∧ x.2.2 < c := by
  cases x with
  | mk i jl =>
    cases jl with
    | mk j l =>
      constructor
      · intro hx
        simp only [triples, List.mem_flatMap, List.mem_map, List.mem_range] at hx
        obtain ⟨ij, hij, l', hl', heq⟩ := hx
        have hp := mem_pairs.mp hij
        cases heq
        exact ⟨hp.1, hp.2, hl'⟩
      · rintro ⟨hi, hj, hl⟩
        simp only [triples, List.mem_flatMap, List.mem_map, List.mem_range]
        exact ⟨(i, j), mem_pairs.mpr ⟨hi, hj⟩, l, hl, rfl⟩

lemma sum_map_range {n : Nat} {f : Nat → ℚ} :
    ((List.range n).map f).sum = ∑ i in Finset.range n, f i := by
  induction n with
  | zero => simp
  | succ n ih => rw [List.range_succ]; simp [ih, Finset.sum_range_succ]

lemma sum_map_pairs {a b : Nat} {f : Nat × Nat → ℚ} :
    ((pairs a b).map f).sum =
      ∑ i in Finset.range a, ∑ j in Finset.range b, f (i, j) := by
  induction a with
  | zero => simp [pairs]
  | succ a ih =>
    have : pairs (a + 1) b = pairs a b ++ (List.range b).map fun j => (a, j) := by
      unfold pairs; rw [List.range_succ]; simp
    rw [this, List.map_append, List.sum_append, ih, Finset.sum_range_succ]
    congr 1
    rw [List.map_map]
    exact sum_map_range

lemma sum_map_triples {a b c : Nat} {f : Nat × Nat × Nat → ℚ} :
    ((triples a b c).map f).sum =
      ∑ i in Finset.range a, ∑ j in Finset.range b, ∑ l in Finset.range c,
        f (i, j, l) := by
  have key : ∀ (ps : List (Nat × Nat)),
      ((ps.flatMap fun ij => (List.range c).map fun l => (ij.1, ij.2, l)).map f).sum =
        (ps.map fun ij =>
          ∑ l in Finset.range c, f (ij.1, ij.2, l)).sum := by
    intro ps
    induction ps with
    | nil => simp
    | cons x xs ih =>
      rw [List.flatMap_cons, List.map_append, List.sum_append, ih,
        List.map_cons, List.sum_cons]
      congr 1
      rw [List.map_map]
      exact sum_map_range
  rw [triples, key]
  have := sum_map_pairs (a := a) (b := b)
    (f := fun ij => ∑ l in Finset.range c, f (ij.1, ij.2, l))
  rw [this]

lemma evalTerms_map {α : Type} (v : Var → ℚ) (xs : List α) (k : α → ℚ)
    (w : α → Var) :
    evalTerms v (xs.map fun x => LinTerm.mk (k x) (w x)) =
      (xs.map fun x => k x * v (w x)).sum := by
  unfold evalTerms
  rw [List.map_map]
  rfl

lemma zLook_eq {p : Problem} {a b c : Nat} (ha : a < p.L) (hb : b < p.J)
    (hc : c < p.I) : zLook p a b c = some (Var.z a b c) :=
  if_pos ⟨ha, hb, hc⟩

lemma qLook_eq {p : Problem} {a b : Nat} (ha : a < p.L) (hb : b < p.J) :
    qLook p a b = some (Var.q a b) :=
  if_pos ⟨ha, hb⟩

lemma aLook_eq {p : Problem} {a : Nat} (ha : a < p.L) :
    aLook p a = some (Var.a a) :=
  if_pos ha

lemma objectiveTerms_build {p : Problem} (hIJ : p.I = p.J) :
    objectiveTerms p = some (mkObjTerms p) := by
  unfold objectiveTerms mkObjTerms
  apply optMap_eq_map
  intro t ht
  obtain ⟨hi, hj, hl⟩ := mem_triples.mp ht
  cases t with
  | mk i jl =>
    cases jl with
    | mk j l =>
      simp only
      rw [zLook_eq hl (hIJ ▸ hi) (hIJ ▸ hj)]
      rfl

lemma sumOfZs_build {p : Problem} (hIJ : p.I = p.J) :
    sumOfZs p = some (mkF2 p) := by
  unfold sumOfZs mkF2
  apply optMap_eq_map
  intro l hl
  rw [List.mem_range] at hl
  rw [optMap_eq_map (g := fun ij => LinTerm.mk 1 (Var.z l ij.1 ij.2))]
  · rfl
  · intro ij hij
    obtain ⟨hi, hj⟩ := mem_pairs.mp hij
    rw [zLook_eq hl (hIJ ▸ hi) (hIJ ▸ hj)]
    rfl

lemma zsSumByJ_build {p : Problem} (hIJ : p.I = p.J) :
    zsSumByJ p = some (mkF3 p) := by
  unfold zsSumByJ mkF3
  apply optMap_eq_map
  intro li hli
  obtain ⟨hl, hi⟩ := mem_pairs.mp hli
  rw [optMap_eq_map (g := fun j => LinTerm.mk 1 (Var.z li.1 li.2 j))]
  · rfl
  · intro j hj
    rw [List.mem_range] at hj
    rw [zLook_eq hl (hIJ ▸ hi) (hIJ ▸ hj)]
    rfl

lemma zsSumByI_build {p : Problem} (hIJ : p.I = p.J) :
    zsSumByI p = some (mkF4 p) := by
  unfold zsSumByI mkF4
  rw [optMap_eq_map (g := fun lj =>
    [⟨⟨(List.range p.I).map fun i => LinTerm.mk 1 (Var.z lj.1 i lj.2), 0⟩,
       CmpRel.le, ⟨[], 1⟩, name4a lj.2 lj.1⟩,
     ⟨⟨(List.range p.I).map fun i => LinTerm.mk 1 (Var.z lj.1 i lj.2), 0⟩,
       CmpRel.ge, ⟨[LinTerm.mk 1 (Var.q lj.1 lj.2)], 0⟩,
       name4b lj.2 lj.1⟩])]
  · rfl
  · intro lj hlj
    obtain ⟨hl, hj⟩ := mem_pairs.mp hlj
    rw [optMap_eq_map (g := fun i => LinTerm.mk 1 (Var.z lj.1 i lj.2))]
    · rw [qLook_eq hl hj]
    · intro i hi
      rw [List.mem_range] at hi
      rw [zLook_eq hl (hIJ ▸ hi) (hIJ ▸ hj)]
      rfl

lemma qsSumEq1_build (p : Problem) : qsSumEq1 p = some (mkF5 p) := by
  unfold qsSumEq1 mkF5
  apply optMap_eq_map
  intro l hl
  rw [List.mem_range] at hl
  rw [optMap_eq_map (g := fun j => LinTerm.mk 1 (Var.q l j))]
  · rfl
  · intro j hj
    rw [List.mem_range] at hj
    rw [qLook_eq hl hj]
    rfl

lemma mostComplexOne_build {p : Problem} (hIJ : p.I = p.J) :
    mostComplexOne p = some (mkF6 p) := by
  unfold mostComplexOne mkF6
  rw [optMap_eq_map (g := fun lj =>
    [⟨⟨LinTerm.mk 1 (Var.a lj.1) ::
        ((pairs p.I p.J).map fun ih =>
          LinTerm.mk (-(cGet p lj.1 ih.1 lj.2)) (Var.z lj.1 ih.1 ih.2)), 0⟩,
       CmpRel.ge, ⟨[], 0⟩, name6a lj.2 lj.1⟩,
     ⟨⟨LinTerm.mk 1 (Var.a lj.1) ::
        ((pairs p.I p.J).map fun ih =>
          LinTerm.mk (-(cGet p lj.1 ih.1 lj.2)) (Var.z lj.1 ih.1 ih.2)), 0⟩,
       CmpRel.le, ⟨[LinTerm.mk (-M) (Var.q lj.1 lj.2)], M⟩,
       name6b lj.2 lj.1⟩])]
  · rfl
  · intro lj hlj
    obtain ⟨hl, hj⟩ := mem_pairs.mp hlj
    rw [aLook_eq hl]
    rw [optMap_eq_map (g := fun ih =>
      LinTerm.mk (-(cGet p lj.1 ih.1 lj.2)) (Var.z lj.1 ih.1 ih.2))]
    · rw [qLook_eq hl hj]
    · intro ih hih
      obtain ⟨hi, hh⟩ := mem_pairs.mp hih
      rw [zLook_eq hl (hIJ ▸ hi) (hIJ ▸ hh)]
      rfl

lemma zsSameInRow_build {p : Problem} (hIJ : p.I = p.J) (hL : 2 ≤ p.L) :
    zsSameInRow p = some (mkF7 p) := by
  unfold zsSameInRow mkF7
  apply optMap_eq_map
  intro li hli
  obtain ⟨hl, hi⟩ := mem_pairs.mp hli
  rw [optMap_eq_map (g := fun j => LinTerm.mk 1 (Var.z li.1 li.2 j))]
  · rw [optMap_eq_map (g := fun j => LinTerm.mk 1 (Var.z 1 li.2 j))]
    · intro j hj
      rw [List.mem_range] at hj
      rw [zLook_eq hL (hIJ ▸ hi) (hIJ ▸ hj)]
      rfl
  · intro j hj
    rw [List.mem_range] at hj
    rw [zLook_eq hl (hIJ ▸ hi) (hIJ ▸ hj)]
    rfl

/-- Whenever `p.I = p.J` and `2 ≤ p.L`, every dictionary access in the
build succeeds and `model` returns exactly `mkModel p`. -/
lemma model_builds {p : Problem} (hIJ : p.I = p.J) (hL : 2 ≤ p.L) :
    model p = some (mkModel p) := by
  unfold model
  rw [objectiveTerms_build hIJ, sumOfZs_build hIJ, zsSumByJ_build hIJ,
    zsSumByI_build hIJ, qsSumEq1_build, mostComplexOne_build hIJ,
    zsSameInRow_build hIJ hL]
  rfl

lemma digitChar_ne_und (d : Nat) : digitChar d ≠ '_' := by
  unfold digitChar
  repeat' split
  all_goals decide

lemma natCharsAux_no_und {fuel n : Nat} {c : Char} :
    c ∈ natCharsAux fuel n → c ≠ '_' := by
  induction fuel generalizing n with
  | zero => intro h; simp [natCharsAux] at h
  | succ fuel ih =>
    intro h
    unfold natCharsAux at h
    split at h
    · rw [List.mem_singleton] at h
      exact h ▸ digitChar_ne_und n
    · rw [List.mem_append] at h
      cases h with
      | inl h => exact ih h
      | inr h =>
        rw [List.mem_singleton] at h
        exact h ▸ digitChar_ne_und (n % 10)

lemma natChars_no_und {n : Nat} {c : Char} : c ∈ natChars n → c ≠ '_' :=
  natCharsAux_no_und

lemma splitUnd_no_und {s : List Char} (h : ∀ c ∈ s, c ≠ '_') :
    splitUnd s = [s] := by
  induction s with
  | nil => rfl
  | cons c rest ih =>
    unfold splitUnd
    rw [if_neg (h c (List.mem_cons_self c rest))]
    rw [ih fun x hx => h x (List.mem_cons_of_mem c hx)]

lemma splitUnd_cons (c : Char) (rest : List Char) :
    splitUnd (c :: rest) =
      if c = '_' then [] :: splitUnd rest
      else
        match splitUnd rest with
        | [] => [[c]]
        | part :: parts => (c :: part) :: parts := rfl

lemma splitUnd_append {s t : List Char} (h : ∀ c ∈ s, c ≠ '_') :
    splitUnd (s ++ '_' :: t) = s :: splitUnd t := by
  induction s with
  | nil => simp [splitUnd]
  | cons c rest ih =>
    have hc : c ≠ '_' := h c (List.mem_cons_self c rest)
    have ht := ih fun x hx => h x (List.mem_cons_of_mem c hx)
    rw [List.cons_append, splitUnd_cons, if_neg hc, ht]

/-- The split of a generated `z` variable name is exactly
`["z", type index, middle index, last index]`. -/
lemma splitUnd_zName (a b c : Nat) :
    splitUnd (varName (Var.z a b c)) =
      [['z'], natChars a, natChars b, natChars c] := by
  show splitUnd (['z'] ++ '_' :: (natChars a ++ '_' :: (natChars b ++ '_' :: natChars c))) =
    [['z'], natChars a, natChars b, natChars c]
  rw [splitUnd_append (by intro x hx; rw [List.mem_singleton] at hx; subst hx; decide)]
  rw [splitUnd_append fun x hx => natChars_no_und hx]
  rw [splitUnd_append fun x hx => natChars_no_und hx]
  rw [splitUnd_no_und fun x hx => natChars_no_und hx]

lemma nameKey_z (a b c : Nat) :
    nameKey (varName (Var.z a b c)) = natChars b := by
  rw [nameKey, splitUnd_zName]; rfl

lemma digitVal_digitChar {d : Nat} (h : d < 10) : digitVal (digitChar d) = d := by
  interval_cases d <;> decide

lemma parseNat_append_digit (s : List Char) (c : Char) :
    parseNat (s ++ [c]) = 10 * parseNat s + digitVal c := by
  unfold parseNat
  rw [List.foldl_append]
  rfl

lemma parseNat_natCharsAux {fuel n : Nat} (h : n < fuel) :
    parseNat (natCharsAux fuel n) = n := by
  induction fuel generalizing n with
  | zero => omega
  | succ fuel ih =>
    unfold natCharsAux
    split
    · rename_i h10
      show parseNat ([] ++ [digitChar n]) = n
      rw [parseNat_append_digit]
      have : parseNat [] = 0 := rfl
      rw [this, digitVal_digitChar h10]
      omega
    · rename_i h10
      rw [parseNat_append_digit]
      have hlt : n / 10 < fuel := by omega
      rw [ih hlt, digitVal_digitChar (Nat.mod_lt n (by omega))]
      omega

/-- `parseNat` inverts `natChars`, hence distinct indices have distinct
decimal renderings. -/
lemma parseNat_natChars (n : Nat) : parseNat (natChars n) = n :=
  parseNat_natCharsAux (Nat.lt_succ_self n)

lemma natChars_injective {m n : Nat} (h : natChars m = natChars n) : m = n := by
  have := parseNat_natChars m
  rw [h, parseNat_natChars] at this
  omega

lemma lookup_append {β : Type} (k : List Char) (l1 l2 : List (List Char × β)) :
    List.lookup k (l1 ++ l2) =
      ((List.lookup k l1).orElse fun _ => List.lookup k l2) := by
  induction l1 with
  | nil => simp [List.lookup, Option.orElse]
  | cons e rest ih =>
    cases e with
    | mk a b =>
      by_cases h : k = a
      · subst h; simp [List.lookup, Option.orElse]
      · have hb : (k == a) = false := beq_eq_false_iff_ne.mpr h
        simp [List.lookup, hb, ih]

lemma firstZ_cons (key : List Char) (e : Var × ℚ) (rest : List (Var × ℚ)) :
    firstZ key (e :: rest) =
      if (varName e.1).head? = some 'z' ∧ e.2 ≠ 0 ∧
          nameKey (varName e.1) = key
      then some e.2 else firstZ key rest := rfl

lemma firstZ_cons_pos {key : List Char} {e : Var × ℚ}
    {rest : List (Var × ℚ)} (h1 : (varName e.1).head? = some 'z')
    (h2 : e.2 ≠ 0) (h3 : nameKey (varName e.1) = key) :
    firstZ key (e :: rest) = some e.2 := by
  rw [firstZ_cons, if_pos ⟨h1, h2, h3⟩]

lemma firstZ_cons_neg {key : List Char} {e : Var × ℚ}
    {rest : List (Var × ℚ)}
    (h : ¬((varName e.1).head? = some 'z' ∧ e.2 ≠ 0 ∧
          nameKey (varName e.1) = key)) :
    firstZ key (e :: rest) = firstZ key rest := by
  rw [firstZ_cons, if_neg h]

lemma decodeZ_foldl (entries : List (Var × ℚ)) :
    ∀ (acc : List (List Char × ℚ)) (key : List Char),
      List.lookup key (entries.foldl decodeZStep acc) =
        ((List.lookup key acc).orElse fun _ => firstZ key entries) := by
  induction entries with
  | nil =>
    intro acc key
    rw [List.foldl_nil]
    cases List.lookup key acc <;> rfl
  | cons e rest ih =>
    intro acc key
    rw [List.foldl_cons, ih]
    by_cases hz : (varName e.1).head? = some 'z'
    · by_cases hv : e.2 ≠ 0
      · by_cases hs : (List.lookup (nameKey (varName e.1)) acc).isSome
        · have hstep : decodeZStep acc e = acc := by
            unfold decodeZStep
            rw [if_pos hz, if_pos hv, if_pos hs]
          rw [hstep]
          by_cases hk : nameKey (varName e.1) = key
          · obtain ⟨v, hv'⟩ := Option.isSome_iff_exists.mp (hk ▸ hs)
            rw [hv', firstZ_cons_pos hz hv hk]
            rfl
          · rw [firstZ_cons_neg fun hc => hk hc.2.2]
        · have hnone : List.lookup (nameKey (varName e.1)) acc = none :=
            Option.not_isSome_iff_eq_none.mp hs
          have hstep : decodeZStep acc e =
              acc ++ [(nameKey (varName e.1), e.2)] := by
            unfold decodeZStep
            rw [if_pos hz, if_pos hv, if_neg (by rw [hnone]; decide)]
          rw [hstep, lookup_append]
          by_cases hk : nameKey (varName e.1) = key
          · subst hk
            rw [hnone, firstZ_cons_pos hz hv rfl]
            simp [List.lookup]
          · have hb : (key == nameKey (varName e.1)) = false :=
              beq_eq_false_iff_ne.mpr fun hx => hk hx.symm
            rw [firstZ_cons_neg fun hc => hk hc.2.2]
            have : List.lookup key [(nameKey (varName e.1), e.2)] = none := by
              simp [List.lookup, hb]
            rw [this]
            cases List.lookup key acc <;> rfl
      · have hstep : decodeZStep acc e = acc := by
          unfold decodeZStep
          rw [if_pos hz, if_neg hv]
        rw [hstep, firstZ_cons_neg fun hc => hv hc.2.1]
    · have hstep : decodeZStep acc e = acc := by
        unfold decodeZStep
        rw [if_neg hz]
      rw [hstep, firstZ_cons_neg fun hc => hz hc.1]

/-- The decoding loop of `main`, looked up at a key, returns the value of
the first nonzero `z`-named variable with that third name component. -/
lemma decodeZ_lookup (entries : List (Var × ℚ)) (key : List Char) :
    List.lookup key (decodeZ entries) = firstZ key entries := by
  rw [decodeZ, decodeZ_foldl entries [] key]
  rfl

lemma firstZ_eq_some {key : List Char} :
    ∀ {entries : List (Var × ℚ)} {val : ℚ}, firstZ key entries = some val →
      ∃ e ∈ entries, (varName e.1).head? = some 'z' ∧ e.2 ≠ 0 ∧
        nameKey (varName e.1) = key ∧ e.2 = val := by
  intro entries
  induction entries with
  | nil => intro val h; simp [firstZ] at h
  | cons e rest ih =>
    intro val h
    unfold firstZ at h
    split at h
    · rename_i hc
      cases h
      exact ⟨e, List.mem_cons_self e rest, hc.1, hc.2.1, hc.2.2, rfl⟩
    · obtain ⟨e', he', h1, h2, h3, h4⟩ := ih h
      exact ⟨e', List.mem_cons_of_mem e he', h1, h2, h3, h4⟩

lemma firstZ_isSome_of_mem {key : List Char} :
    ∀ {entries : List (Var × ℚ)} {e : Var × ℚ}, e ∈ entries →
      (varName e.1).head? = some 'z' → e.2 ≠ 0 →
      nameKey (varName e.1) = key → (firstZ key entries).isSome = true := by
  intro entries
  induction entries with
  | nil => intro e he; simp at he
  | cons x rest ih =>
    intro e he h1 h2 h3
    rw [List.mem_cons] at he
    unfold firstZ
    split
    · rfl
    · rename_i hc
      cases he with
      | inl h => subst h; exact absurd ⟨h1, h2, h3⟩ hc
      | inr h => exact ih h h1 h2 h3

lemma mem_mkModel_of_f2 {p : Problem} {c : Constr} (h : c ∈ mkF2 p) :
    c ∈ (mkModel p).constraints := by
  simp only [mkModel, List.mem_append]; tauto

lemma mem_mkModel_of_f4 {p : Problem} {c : Constr} (h : c ∈ mkF4 p) :
    c ∈ (mkModel p).constraints := by
  simp only [mkModel, List.mem_append]; tauto

lemma mem_mkModel_of_f5 {p : Problem} {c : Constr} (h : c ∈ mkF5 p) :
    c ∈ (mkModel p).constraints := by
  simp only [mkModel, List.mem_append]; tauto

lemma mem_mkModel_of_f6 {p : Problem} {c : Constr} (h : c ∈ mkF6 p) :
    c ∈ (mkModel p).constraints := by
  simp only [mkModel, List.mem_append]; tauto

lemma mem_mkModel_of_f7 {p : Problem} {c : Constr} (h : c ∈ mkF7 p) :
    c ∈ (mkModel p).constraints := by
  simp only [mkModel, List.mem_append]; tauto

lemma evalTerms_one_range {v : Var → ℚ} {n : Nat} {w : Nat → Var} :
    evalTerms v ((List.range n).map fun j => LinTerm.mk 1 (w j)) =
      ∑ j in Finset.range n, v (w j) := by
  unfold evalTerms
  rw [List.map_map, sum_map_range]
  simp [Function.comp]

lemma evalTerms_pairs {v : Var → ℚ} {a b : Nat} {k : Nat × Nat → ℚ}
    {w : Nat × Nat → Var} :
    evalTerms v ((pairs a b).map fun ij => LinTerm.mk (k ij) (w ij)) =
      ∑ i in Finset.range a, ∑ j in Finset.range b,
        k (i, j) * v (w (i, j)) := by
  unfold evalTerms
  rw [List.map_map, sum_map_pairs]
  simp [Function.comp]

lemma evalTerms_triples {v : Var → ℚ} {a b c : Nat}
    {k : Nat × Nat × Nat → ℚ} {w : Nat × Nat × Nat → Var} :
    evalTerms v ((triples a b c).map fun t => LinTerm.mk (k t) (w t)) =
      ∑ i in Finset.range a, ∑ j in Finset.range b, ∑ l in Finset.range c,
        k (i, j, l) * v (w (i, j, l)) := by
  unfold evalTerms
  rw [List.map_map, sum_map_triples]
  simp [Function.comp]

lemma sat_f2 {p : Problem} {v : Var → ℚ}
    (hsat : ∀ c ∈ (mkModel p).constraints, constrHolds v c)
    {l : Nat} (hl : l < p.L) :
    ∑ i in Finset.range p.I, ∑ j in Finset.range p.J, v (Var.z l i j) = 1 := by
  have hc := hsat _ (mem_mkModel_of_f2
    (List.mem_map.mpr ⟨l, List.mem_range.mpr hl, rfl⟩))
  simp only [constrHolds, Affine.eval] at hc
  rw [evalTerms_pairs (k := fun _ => 1)
    (w := fun ij => Var.z l ij.1 ij.2)] at hc
  simpa [evalTerms] using hc

lemma sat_f4q {p : Problem} {v : Var → ℚ}
    (hsat : ∀ c ∈ (mkModel p).constraints, constrHolds v c)
    {l j : Nat} (hl : l < p.L) (hj : j < p.J) :
    v (Var.q l j) ≤ ∑ i in Finset.range p.I, v (Var.z l i j) := by
  have hmem : (⟨⟨(List.range p.I).map fun i => LinTerm.mk 1 (Var.z l i j), 0⟩,
      CmpRel.ge, ⟨[LinTerm.mk 1 (Var.q l j)], 0⟩, name4b j l⟩ : Constr) ∈
      mkF4 p := by
    apply List.mem_flatten.mpr
    refine ⟨_, List.mem_map.mpr ⟨(l, j), mem_pairs.mpr ⟨hl, hj⟩, rfl⟩, ?_⟩
    simp
  have hc := hsat _ (mem_mkModel_of_f4 hmem)
  simp only [constrHolds, Affine.eval] at hc
  rw [evalTerms_one_range (w := fun i => Var.z l i j)] at hc
  simp only [evalTerms, List.map_cons, List.map_nil, List.sum_cons,
    List.sum_nil] at hc
  linarith

lemma sat_f5 {p : Problem} {v : Var → ℚ}
    (hsat : ∀ c ∈ (mkModel p).constraints, constrHolds v c)
    {l : Nat} (hl : l < p.L) :
    ∑ j in Finset.range p.J, v (Var.q l j) = 1 := by
  have hc := hsat _ (mem_mkModel_of_f5
    (List.mem_map.mpr ⟨l, List.mem_range.mpr hl, rfl⟩))
  simp only [constrHolds, Affine.eval] at hc
  rw [evalTerms_one_range (w := fun j => Var.q l j)] at hc
  simpa [evalTerms] using hc

lemma sat_f7 {p : Problem} {v : Var → ℚ}
    (hsat : ∀ c ∈ (mkModel p).constraints, constrHolds v c)
    {l i : Nat} (hl : l < p.L) (hi : i < p.I) :
    ∑ j in Finset.range p.J, v (Var.z l i j) =
      ∑ j in Finset.range p.J, v (Var.z 1 i j) := by
  have hc := hsat _ (mem_mkModel_of_f7
    (List.mem_map.mpr ⟨(l, i), mem_pairs.mpr ⟨hl, hi⟩, rfl⟩))
  simp only [constrHolds, Affine.eval] at hc
  rw [evalTerms_one_range (w := fun j => Var.z l i j),
    evalTerms_one_range (w := fun j => Var.z 1 i j)] at hc
  simpa using hc

lemma exists_qstar {p : Problem} {v : Var → ℚ}
    (hsat : ∀ c ∈ (mkModel p).constraints, constrHolds v c)
    (hqb : ∀ l < p.L, ∀ j < p.J, v (Var.q l j) = 0 ∨ v (Var.q l j) = 1)
    {l : Nat} (hl : l < p.L) :
    ∃ js, js < p.J ∧ v (Var.q l js) = 1 := by
  by_contra h
  push_neg at h
  have hz : ∀ j ∈ Finset.range p.J, v (Var.q l j) = 0 := by
    intro j hj
    rw [Finset.mem_range] at hj
    rcases hqb l hl j hj with h0 | h1
    · exact h0
    · exact absurd h1 (h j hj)
  have hs := sat_f5 hsat hl
  rw [Finset.sum_eq_zero hz] at hs
  norm_num at hs

lemma z_concentrated {p : Problem} {v : Var → ℚ}
    (hsat : ∀ c ∈ (mkModel p).constraints, constrHolds v c)
    (hzb : ∀ a < p.L, ∀ b < p.J, ∀ c < p.I, 0 ≤ v (Var.z a b c))
    (hIJ : p.I = p.J) {l js : Nat} (hl : l < p.L) (hjs : js < p.J)
    (hq1 : v (Var.q l js) = 1) :
    ∀ i < p.I, ∀ j < p.J, j ≠ js → v (Var.z l i j) = 0 := by
  have hznn : ∀ i < p.I, ∀ j < p.J, 0 ≤ v (Var.z l i j) := by
    intro i hi j hj
    exact hzb l hl i (hIJ ▸ hi) j (hIJ ▸ hj)
  have h2 := sat_f2 hsat hl
  have hcomm : ∑ j in Finset.range p.J, ∑ i in Finset.range p.I,
      v (Var.z l i j) = 1 := by
    rw [Finset.sum_comm]; exact h2
  have h4 := sat_f4q hsat hl hjs
  rw [hq1] at h4
  have hmem : js ∈ Finset.range p.J := Finset.mem_range.mpr hjs
  have hsplit := Finset.add_sum_erase (Finset.range p.J)
    (fun j => ∑ i in Finset.range p.I, v (Var.z l i j)) hmem
  have hnn : ∀ j ∈ (Finset.range p.J).erase js,
      0 ≤ ∑ i in Finset.range p.I, v (Var.z l i j) := by
    intro j hj
    have hj' := Finset.mem_range.mp (Finset.mem_of_mem_erase hj)
    exact Finset.sum_nonneg fun i hi =>
      hznn i (Finset.mem_range.mp hi) j hj'
  have hcols0 : ∑ j in (Finset.range p.J).erase js,
      ∑ i in Finset.range p.I, v (Var.z l i j) = 0 := by
    have hle : ∑ j in (Finset.range p.J).erase js,
        ∑ i in Finset.range p.I, v (Var.z l i j) ≤ 0 := by
      have := hsplit.symm
      rw [hcomm] at hsplit
      linarith
    exact le_antisymm hle (Finset.sum_nonneg hnn)
  have hallcols := (Finset.sum_eq_zero_iff_of_nonneg hnn).mp hcols0
  intro i hi j hj hne
  have hcol := hallcols j (Finset.mem_erase.mpr ⟨hne, Finset.mem_range.mpr hj⟩)
  have hnn2 : ∀ i ∈ Finset.range p.I, 0 ≤ v (Var.z l i j) := fun i hi =>
    hznn i (Finset.mem_range.mp hi) j hj
  exact (Finset.sum_eq_zero_iff_of_nonneg hnn2).mp hcol i
    (Finset.mem_range.mpr hi)

lemma marginal_single {p : Problem} {v : Var → ℚ} {l js : Nat}
    (hjs : js < p.J)
    (hconc : ∀ i < p.I, ∀ j < p.J, j ≠ js → v (Var.z l i j) = 0)
    {i : Nat} (hi : i < p.I) :
    ∑ j in Finset.range p.J, v (Var.z l i j) = v (Var.z l i js) :=
  Finset.sum_eq_single_of_mem js (Finset.mem_range.mpr hjs)
    fun j hj hne => hconc i hi j (Finset.mem_range.mp hj) hne

lemma head_varName_z (a b c : Nat) :
    (varName (Var.z a b c)).head? = some 'z' := rfl

lemma z_of_head {w : Var} (h : (varName w).head? = some 'z') :
    ∃ a b c, w = Var.z a b c := by
  cases w with
  | z a b c => exact ⟨a, b, c, rfl⟩
  | q a b => simp [varName] at h
  | a a => simp [varName] at h

lemma allVars_z_bounds {p : Problem} {a b c : Nat}
    (h : Var.z a b c ∈ allVars p) : a < p.L ∧ b < p.J ∧ c < p.I := by
  simp only [allVars, List.mem_append, List.mem_flatMap, List.mem_map,
    List.mem_range] at h
  rcases h with ((⟨l, hl, b', hb', c', hc', heq⟩ | ⟨l, hl, b', hb', heq⟩) |
    ⟨l, hl, heq⟩)
  · cases heq; exact ⟨hl, hb', hc'⟩
  · cases heq
  · cases heq

lemma z_mem_allVars {p : Problem} {a b c : Nat} (ha : a < p.L)
    (hb : b < p.J) (hc : c < p.I) : Var.z a b c ∈ allVars p := by
  simp only [allVars, List.mem_append, List.mem_flatMap, List.mem_map,
    List.mem_range]
  exact Or.inl (Or.inl ⟨a, ha, b, hb, c, hc, rfl⟩)

lemma z_value_eq_marginal {p : Problem} {v : Var → ℚ}
    (hsat : ∀ c ∈ (mkModel p).constraints, constrHolds v c)
    (hzb : ∀ a < p.L, ∀ b < p.J, ∀ c < p.I, 0 ≤ v (Var.z a b c))
    (hqb : ∀ l < p.L, ∀ j < p.J, v (Var.q l j) = 0 ∨ v (Var.q l j) = 1)
    (hIJ : p.I = p.J) {a b c : Nat} (ha : a < p.L) (hb : b < p.J)
    (hc : c < p.I) (hnz : v (Var.z a b c) ≠ 0) :
    v (Var.z a b c) = ∑ j in Finset.range p.J, v (Var.z 1 b j) := by
  obtain ⟨js, hjs, hq1⟩ := exists_qstar hsat hqb ha
  have hconc := z_concentrated hsat hzb hIJ ha hjs hq1
  have hbI : b < p.I := hIJ ▸ hb
  have hcJ : c < p.J := hIJ ▸ hc
  have hcjs : c = js := by
    by_contra hne
    exact hnz (hconc b hbI c hcJ hne)
  subst hcjs
  have hmarg := marginal_single hjs hconc hbI
  rw [← hmarg]
  exact sat_f7 hsat ha hbI

lemma decodeZ_getD_eq {p : Problem} {v : Var → ℚ}
    {entries : List (Var × ℚ)}
    (hIJ : p.I = p.J) (hL : 2 ≤ p.L)
    (hsat : ∀ c ∈ (mkModel p).constraints, constrHolds v c)
    (hzb : ∀ a < p.L, ∀ b < p.J, ∀ c < p.I, 0 ≤ v (Var.z a b c))
    (hqb : ∀ l < p.L, ∀ j < p.J, v (Var.q l j) = 0 ∨ v (Var.q l j) = 1)
    (hent : ∀ e ∈ entries, e.1 ∈ allVars p ∧ e.2 = v e.1)
    (hcomp : ∀ a < p.L, ∀ b < p.J, ∀ c < p.I,
      (Var.z a b c, v (Var.z a b c)) ∈ entries)
    {i : Nat} (hi : i < p.I) :
    (List.lookup (natChars i) (decodeZ entries)).getD 0 =
      ∑ j in Finset.range p.J, v (Var.z 1 i j) := by
  have h1L : 1 < p.L := hL
  have hiJ : i < p.J := hIJ ▸ hi
  rw [decodeZ_lookup]
  have hsome : ∀ val : ℚ, firstZ (natChars i) entries = some val →
      val = ∑ j in Finset.range p.J, v (Var.z 1 i j) ∧ val ≠ 0 := by
    intro val hval
    obtain ⟨e, he, hhead, hnz, hkey, hv⟩ := firstZ_eq_some hval
    obtain ⟨a, b, c, hw⟩ := z_of_head hhead
    obtain ⟨hmem, hve⟩ := hent e he
    rw [hw] at hmem hve
    obtain ⟨ha, hb, hc⟩ := allVars_z_bounds hmem
    rw [hw, nameKey_z] at hkey
    have hbi : b = i := natChars_injective hkey
    subst hbi
    have hnz2 : v (Var.z a b c) ≠ 0 := by rw [← hve]; exact hnz
    have hm := z_value_eq_marginal hsat hzb hqb hIJ ha hb hc hnz2
    constructor
    · rw [← hv, hve, hm]
    · rw [← hv, hve]; exact hnz2
  by_cases hX : ∑ j in Finset.range p.J, v (Var.z 1 i j) = 0
  · cases hfz : firstZ (natChars i) entries with
    | none => rw [hX]; rfl
    | some val =>
      obtain ⟨hveq, hvne⟩ := hsome val hfz
      exact absurd (hveq.trans hX) hvne
  · have hex : ∃ j0, j0 < p.J ∧ v (Var.z 1 i j0) ≠ 0 := by
      by_contra hall
      push_neg at hall
      exact hX (Finset.sum_eq_zero fun j hj =>
        hall j (Finset.mem_range.mp hj))
    obtain ⟨j0, hj0, hnz0⟩ := hex
    have hin := hcomp 1 h1L i hiJ j0 (hIJ ▸ hj0)
    have hisSome := firstZ_isSome_of_mem hin (head_varName_z 1 i j0) hnz0
      (nameKey_z 1 i j0)
    obtain ⟨val, hval⟩ := Option.isSome_iff_exists.mp hisSome
    rw [hval]
    exact (hsome val hval).1

lemma evalTerms_nil {v : Var → ℚ} : evalTerms v [] = 0 := rfl

lemma evalTerms_cons {v : Var → ℚ} {t : LinTerm} {ts : List LinTerm} :
    evalTerms v (t :: ts) = t.coeff * v t.var + evalTerms v ts := by
  unfold evalTerms
  rw [List.map_cons, List.sum_cons]

lemma f2_zbound {p : Problem} {con : Constr} (h : con ∈ mkF2 p)
    {t : LinTerm} (ht : t ∈ con.lhs.terms ++ con.rhs.terms) {a b c : Nat}
    (he : t.var = Var.z a b c) : a < p.L ∧ b < p.I ∧ c < p.J := by
  obtain ⟨l, hl, rfl⟩ := List.mem_map.mp h
  rw [List.mem_range] at hl
  simp only [List.append_nil] at ht
  obtain ⟨ij, hij, rfl⟩ := List.mem_map.mp ht
  obtain ⟨hi, hj⟩ := mem_pairs.mp hij
  cases he
  exact ⟨hl, hi, hj⟩

lemma f3_zbound {p : Problem} {con : Constr} (h : con ∈ mkF3 p)
    {t : LinTerm} (ht : t ∈ con.lhs.terms ++ con.rhs.terms) {a b c : Nat}
    (he : t.var = Var.z a b c) : a < p.L ∧ b < p.I ∧ c < p.J := by
  obtain ⟨li, hli, rfl⟩ := List.mem_map.mp h
  obtain ⟨hl, hi⟩ := mem_pairs.mp hli
  simp only [List.append_nil] at ht
  obtain ⟨j, hj, rfl⟩ := List.mem_map.mp ht
  rw [List.mem_range] at hj
  cases he
  exact ⟨hl, hi, hj⟩

lemma f4_zbound {p : Problem} {con : Constr} (h : con ∈ mkF4 p)
    {t : LinTerm} (ht : t ∈ con.lhs.terms ++ con.rhs.terms) {a b c : Nat}
    (he : t.var = Var.z a b c) : a < p.L ∧ b < p.I ∧ c < p.J := by
  obtain ⟨cs, hcs, hcon⟩ := List.mem_flatten.mp h
  obtain ⟨lj, hlj, rfl⟩ := List.mem_map.mp hcs
  obtain ⟨hl, hj⟩ := mem_pairs.mp hlj
  rw [List.mem_cons, List.mem_cons] at hcon
  rcases hcon with rfl | rfl | hcon
  · simp only [List.append_nil] at ht
    obtain ⟨i, hi, rfl⟩ := List.mem_map.mp ht
    rw [List.mem_range] at hi
    cases he
    exact ⟨hl, hi, hj⟩
  · rw [List.mem_append] at ht
    rcases ht with ht | ht
    · obtain ⟨i, hi, rfl⟩ := List.mem_map.mp ht
      rw [List.mem_range] at hi
      cases he
      exact ⟨hl, hi, hj⟩
    · rw [List.mem_singleton] at ht
      subst ht
      cases he
  · cases hcon

lemma f5_zbound {p : Problem} {con : Constr} (h : con ∈ mkF5 p)
    {t : LinTerm} (ht : t ∈ con.lhs.terms ++ con.rhs.terms) {a b c : Nat}
    (he : t.var = Var.z a b c) : a < p.L ∧ b < p.I ∧ c < p.J := by
  obtain ⟨l, hl, rfl⟩ := List.mem_map.mp h
  simp only [List.append_nil] at ht
  obtain ⟨j, hj, rfl⟩ := List.mem_map.mp ht
  cases he

lemma f6_zbound {p : Problem} {con : Constr} (h : con ∈ mkF6 p)
    {t : LinTerm} (ht : t ∈ con.lhs.terms ++ con.rhs.terms) {a b c : Nat}
    (he : t.var = Var.z a b c) : a < p.L ∧ b < p.I ∧ c < p.J := by
  obtain ⟨cs, hcs, hcon⟩ := List.mem_flatten.mp h
  obtain ⟨lj, hlj, rfl⟩ := List.mem_map.mp hcs
  obtain ⟨hl, hj⟩ := mem_pairs.mp hlj
  rw [List.mem_cons, List.mem_cons] at hcon
  rcases hcon with rfl | rfl | hcon
  · simp only [List.append_nil] at ht
    rw [List.mem_cons] at ht
    rcases ht with rfl | ht
    · cases he
    · obtain ⟨ih, hih, rfl⟩ := List.mem_map.mp ht
      obtain ⟨hi, hh⟩ := mem_pairs.mp hih
      cases he
      exact ⟨hl, hi, hh⟩
  · rw [List.mem_append] at ht
    rcases ht with ht | ht
    · rw [List.mem_cons] at ht
      rcases ht with rfl | ht
      · cases he
      · obtain ⟨ih, hih, rfl⟩ := List.mem_map.mp ht
        obtain ⟨hi, hh⟩ := mem_pairs.mp hih
        cases he
        exact ⟨hl, hi, hh⟩
    · rw [List.mem_singleton] at ht
      subst ht
      cases he
  · cases hcon

lemma f7_zbound {p : Problem} (hL : 2 ≤ p.L) {con : Constr}
    (h : con ∈ mkF7 p) {t : LinTerm}
    (ht : t ∈ con.lhs.terms ++ con.rhs.terms) {a b c : Nat}
    (he : t.var = Var.z a b c) : a < p.L ∧ b < p.I ∧ c < p.J := by
  obtain ⟨li, hli, rfl⟩ := List.mem_map.mp h
  obtain ⟨hl, hi⟩ := mem_pairs.mp hli
  rw [List.mem_append] at ht
  rcases ht with ht | ht
  · obtain ⟨j, hj, rfl⟩ := List.mem_map.mp ht
    rw [List.mem_range] at hj
    cases he
    exact ⟨hl, hi, hj⟩
  · obtain ⟨j, hj, rfl⟩ := List.mem_map.mp ht
    rw [List.mem_range] at hj
    cases he
    exact ⟨hL, hi, hj⟩

/-- C1: the claim states that for every valid GameSpec the build `model(p)`
succeeds with no reachable error branch.  The code refutes it: `exC1` is a
valid spec (`L=2, J=2, I=3`), yet the build dies with a `KeyError` — the
`z_s` dictionary is allocated over `range(L) × range(J) × range(I)` while
every constraint indexes it as `z_s[l][i][j]` with `i < I`, contradicting
the source's own comment `# dimensions: l x i x j`.  The build only ever
succeeds when `I = J` (and `L ≥ 2`, see C2). -/
theorem c1_build_fails_on_valid_spec :
    validSpec exC1 ∧ model exC1 = none := by
  constructor
  · norm_num [validSpec, tensorDims, exC1]
  · decide

/-- C2: the claim states that every valid GameSpec with `L = 1` builds and
degenerates to the single-type MILP with vacuous consistency constraints.
The code refutes it: on the spec's own §8 scenario (`L=1, J=2, I=2`),
`__zs_same_in_row` reads `z_s[1]` — the paper's 1-indexed reference type
`1` used verbatim under 0-indexing — which does not exist when only type
`0` is allocated, so the build raises `KeyError` instead of producing the
classical model. -/
theorem c2_single_type_build_crashes :
    validSpec exC2 ∧ model exC2 = none := by
  constructor
  · norm_num [validSpec, tensorDims, exC2]
  · decide

/-- C3 counterexample: the claim says construction is rejected with
`ValidationError` on malformed input; but `Problem.__init__` contains no
validation at all, so the nonpositive-dimension input `L=0` is accepted and
stored verbatim. -/
theorem c3_counterexample :
    problemInit 0 2 2 [] [] [] = Except.ok ⟨0, 2, 2, [], [], []⟩ ∧
    ¬ validSpec ⟨0, 2, 2, [], [], []⟩ := by
  constructor
  · rfl
  · decide

/-- C3 amended: `Problem.__init__` performs no validation whatsoever — for
every input, malformed or not, construction succeeds and stores the six
arguments unchanged; no input is ever rejected before model work begins. -/
theorem c3_no_validation (a b c : Nat) (P : List ℚ)
    (R C : List (List (List ℚ))) :
    problemInit a b c P R C = Except.ok ⟨a, b, c, P, R, C⟩ := rfl

/-- C4 counterexample: the claim says a `NotSolved` status is never
accepted by the decoder, but the `assert` in `Solution.__init__` explicitly
admits `LpStatusNotSolved`, so construction succeeds on it. -/
theorem c4_counterexample :
    solutionInit SolveStatus.NotSolved none = Except.ok ⟨none⟩ := rfl

/-- C4 amended: `Solution.__init__` fails (assertion) exactly on
`Infeasible`, `Unbounded` and `Undefined`; it accepts both `Optimal` and
`NotSolved` — the latter even as a final status. -/
theorem c4_accepts_notsolved_and_optimal (st : SolveStatus)
    (val : Option ℚ) :
    (∃ s, solutionInit st val = Except.ok s) ↔
      (st = SolveStatus.NotSolved ∨ st = SolveStatus.Optimal) := by
  cases st
  · exact ⟨fun _ => Or.inl rfl, fun _ => ⟨⟨val⟩, rfl⟩⟩
  · exact ⟨fun _ => Or.inr rfl, fun _ => ⟨⟨val⟩, rfl⟩⟩
  all_goals
    constructor
    · rintro ⟨s, hs⟩
      exact absurd hs (by simp [solutionInit])
    · rintro (h | h) <;> cases h

/-- C4 witness: the amended theorem at the concrete status `Infeasible`. -/
theorem c4_witness :
    (∃ s, solutionInit SolveStatus.Infeasible none = Except.ok s) ↔
      (SolveStatus.Infeasible = SolveStatus.NotSolved ∨
       SolveStatus.Infeasible = SolveStatus.Optimal) :=
  c4_accepts_notsolved_and_optimal SolveStatus.Infeasible none

/-- C9: model construction reads the six fields of the `Problem` and
mutates nothing: two specs with equal fields build syntactically identical
models (same problem name, sense, objective, constraint order and
constraint names), and the `Problem` state after a build is the state
before it. -/
theorem c9_build_deterministic_and_pure (p1 p2 : Problem)
    (hL : p1.L = p2.L) (hJ : p1.J = p2.J) (hI : p1.I = p2.I)
    (hP : p1.P = p2.P) (hR : p1.R = p2.R) (hC : p1.C = p2.C) :
    (modelRun p1).1 = (modelRun p2).1 ∧ (modelRun p1).2 = p1 := by
  cases p1
  cases p2
  simp only at hL hJ hI hP hR hC
  subst hL
  subst hJ
  subst hI
  subst hP
  subst hR
  subst hC
  exact ⟨rfl, rfl⟩

/-- C9 witness: two syntactically different but fieldwise-equal specs
(`2/4` against `1/2` in the probability list) build the same model, and
the spec survives the build unchanged. -/
theorem c9_witness :
    (modelRun ⟨2, 2, 2, [2 / 4, 1 / 2], [], []⟩).1 =
      (modelRun ⟨2, 2, 2, [1 / 2, 2 / 4], [], []⟩).1 ∧
    (modelRun ⟨2, 2, 2, [2 / 4, 1 / 2], [], []⟩).2 =
      (⟨2, 2, 2, [2 / 4, 1 / 2], [], []⟩ : Problem) :=
  c9_build_deterministic_and_pure _ _ rfl rfl rfl (by norm_num) rfl rfl

/-- C5: whenever the build succeeds (`I = J`, `L ≥ 2` — the only regime in
which `model` returns a model at all, cf. C1/C2), the problem sense is
maximize and the objective expression evaluates, under every valuation, to
`Σ_l Σ_i Σ_j P[l] * R[l][i][j] * z[l][i][j]`. -/
theorem c5_objective_is_expected_leader_payoff (p : Problem) (m : Model)
    (hIJ : p.I = p.J) (hL : 2 ≤ p.L) (hmod : model p = some m) :
    m.maximize = true ∧
    ∀ v : Var → ℚ, evalTerms v m.objTerms =
      ∑ l in Finset.range p.L, ∑ i in Finset.range p.I,
        ∑ j in Finset.range p.J,
          pGet p l * rGet p l i j * v (Var.z l i j) := by
  have hm : m = mkModel p := by
    rw [model_builds hIJ hL] at hmod
    exact (Option.some.inj hmod).symm
  subst hm
  refine ⟨rfl, fun v => ?_⟩
  show evalTerms v (mkObjTerms p) = _
  unfold mkObjTerms
  rw [evalTerms_triples (k := fun t => pGet p t.2.2 * rGet p t.2.2 t.1 t.2.1)
    (w := fun t => Var.z t.2.2 t.1 t.2.1)]
  calc ∑ i in Finset.range p.I, ∑ j in Finset.range p.J,
        ∑ l in Finset.range p.L,
          pGet p l * rGet p l i j * v (Var.z l i j)
      = ∑ i in Finset.range p.I, ∑ l in Finset.range p.L,
          ∑ j in Finset.range p.J,
            pGet p l * rGet p l i j * v (Var.z l i j) :=
        Finset.sum_congr rfl fun i _ => Finset.sum_comm
    _ = ∑ l in Finset.range p.L, ∑ i in Finset.range p.I,
          ∑ j in Finset.range p.J,
            pGet p l * rGet p l i j * v (Var.z l i j) := Finset.sum_comm

/-- C8: whenever the build succeeds, the cross-type consistency family
contains, for every `(l, i)`, an equality constraint forcing the leader
marginal `Σ_j z[l][i][j]` to equal `Σ_j z[r][i][j]` for the single fixed
reference type `r = 1`, the same hard-coded index for all `l` and `i`
(`__zs_same_in_row` always reads `z_s[1]`). -/
theorem c8_consistency_uses_fixed_reference_type (p : Problem) (m : Model)
    (hIJ : p.I = p.J) (hL : 2 ≤ p.L) (hmod : model p = some m) :
    ∀ l < p.L, ∀ i < p.I, ∃ con ∈ m.constraints, ∀ v : Var → ℚ,
      constrHolds v con ↔
        ∑ j in Finset.range p.J, v (Var.z l i j) =
          ∑ j in Finset.range p.J, v (Var.z 1 i j) := by
  have hm : m = mkModel p := by
    rw [model_builds hIJ hL] at hmod
    exact (Option.some.inj hmod).symm
  subst hm
  intro l hl i hi
  refine ⟨⟨⟨(List.range p.J).map fun j => LinTerm.mk 1 (Var.z l i j), 0⟩,
    CmpRel.eq,
    ⟨(List.range p.J).map fun j => LinTerm.mk 1 (Var.z 1 i j), 0⟩,
    name7 i l⟩, ?_, ?_⟩
  · exact mem_mkModel_of_f7
      (List.mem_map.mpr ⟨(l, i), mem_pairs.mpr ⟨hl, hi⟩, rfl⟩)
  · intro v
    simp only [constrHolds, Affine.eval]
    rw [evalTerms_one_range (w := fun j => Var.z l i j),
      evalTerms_one_range (w := fun j => Var.z 1 i j)]
    constructor <;> intro h <;> linarith

/-- C6: whenever the build succeeds, `__most_complex_one` adds, for every
`(l, j)`, the two big-M optimality-linkage inequalities
`a[l] - Σ_i C[l][i][j] * (Σ_h z[l][i][h]) ≥ 0` and
`a[l] - Σ_i C[l][i][j] * (Σ_h z[l][i][h]) ≤ (1 - q[l][j]) * M`, with the
constant `M = 1000000` fixed at module scope. -/
theorem c6_bigM_linkage_inequalities (p : Problem) (m : Model)
    (hIJ : p.I = p.J) (hL : 2 ≤ p.L) (hmod : model p = some m) :
    ∀ l < p.L, ∀ j < p.J,
      (∃ con ∈ m.constraints, ∀ v : Var → ℚ,
        constrHolds v con ↔
          0 ≤ v (Var.a l) - ∑ i in Finset.range p.I,
            cGet p l i j * ∑ h in Finset.range p.J, v (Var.z l i h)) ∧
      (∃ con ∈ m.constraints, ∀ v : Var → ℚ,
        constrHolds v con ↔
          v (Var.a l) - ∑ i in Finset.range p.I,
            cGet p l i j * ∑ h in Finset.range p.J, v (Var.z l i h) ≤
            (1 - v (Var.q l j)) * 1000000) := by
  have hm : m = mkModel p := by
    rw [model_builds hIJ hL] at hmod
    exact (Option.some.inj hmod).symm
  subst hm
  intro l hl j hj
  have hmemlist : ∀ con ∈
      [(⟨⟨LinTerm.mk 1 (Var.a l) ::
          ((pairs p.I p.J).map fun ih =>
            LinTerm.mk (-(cGet p l ih.1 j)) (Var.z l ih.1 ih.2)), 0⟩,
         CmpRel.ge, ⟨[], 0⟩, name6a j l⟩ : Constr),
       ⟨⟨LinTerm.mk 1 (Var.a l) ::
          ((pairs p.I p.J).map fun ih =>
            LinTerm.mk (-(cGet p l ih.1 j)) (Var.z l ih.1 ih.2)), 0⟩,
         CmpRel.le, ⟨[LinTerm.mk (-M) (Var.q l j)], M⟩, name6b j l⟩],
      con ∈ (mkModel p).constraints := by
    intro con hcon
    apply mem_mkModel_of_f6
    exact List.mem_flatten.mpr
      ⟨_, List.mem_map.mpr ⟨(l, j), mem_pairs.mpr ⟨hl, hj⟩, rfl⟩, hcon⟩
  have hsum : ∀ v : Var → ℚ,
      evalTerms v ((pairs p.I p.J).map fun ih =>
        LinTerm.mk (-(cGet p l ih.1 j)) (Var.z l ih.1 ih.2)) =
      -(∑ i in Finset.range p.I,
          cGet p l i j * ∑ h in Finset.range p.J, v (Var.z l i h)) := by
    intro v
    rw [evalTerms_pairs (k := fun ih => -(cGet p l ih.1 j))
      (w := fun ih => Var.z l ih.1 ih.2)]
    rw [← Finset.sum_neg_distrib]
    apply Finset.sum_congr rfl
    intro i _
    rw [Finset.mul_sum, ← Finset.sum_neg_distrib]
    apply Finset.sum_congr rfl
    intro h _
    ring
  constructor
  · refine ⟨_, hmemlist _ (List.mem_cons_self _ _), fun v => ?_⟩
    simp only [constrHolds, Affine.eval, evalTerms_cons, evalTerms_nil,
      hsum v]
    constructor <;> intro h <;> linarith
  · refine ⟨_, hmemlist _ (List.mem_cons_of_mem _ (List.mem_cons_self _ _)),
      fun v => ?_⟩
    simp only [constrHolds, Affine.eval, evalTerms_cons, evalTerms_nil,
      hsum v]
    have hring : (1 - v (Var.q l j)) * 1000000 =
        1000000 - v (Var.q l j) * 1000000 := by ring
    rw [hring]
    unfold M
    constructor <;> intro h <;> linarith

/-- C10: in a successful build, the dictionary entry retrieved by every
constraint access `z_s[l][i][j]` is the variable whose path — and hence
whose generated name `z_l_i_j` — lists the indices in the order (type,
leader strategy, follower strategy).  Concretely: every objective term
pairs the coefficient `P[l] * R[l][i][j]` with the variable `Var.z l i j`
whose middle path component is the leader index of that `R` entry; every
`z` variable referenced anywhere in the constraints has its middle path
component below `I` (a leader-strategy index); and the second numeric
component of the generated name — the one `main` parses with
`var.name.split('_')[2]` — is exactly that middle index. -/
theorem c10_z_names_encode_leader_index (p : Problem) (m : Model)
    (hIJ : p.I = p.J) (hL : 2 ≤ p.L) (hmod : model p = some m) :
    (∀ t ∈ m.objTerms, ∃ l i j, l < p.L ∧ i < p.I ∧ j < p.J ∧
      t = LinTerm.mk (pGet p l * rGet p l i j) (Var.z l i j)) ∧
    (∀ con ∈ m.constraints, ∀ t ∈ con.lhs.terms ++ con.rhs.terms,
      ∀ a b c : Nat, t.var = Var.z a b c →
        a < p.L ∧ b < p.I ∧ c < p.J) ∧
    (∀ a b c : Nat,
      splitUnd (varName (Var.z a b c)) =
        [['z'], natChars a, natChars b, natChars c] ∧
      nameKey (varName (Var.z a b c)) = natChars b) := by
  have hm : m = mkModel p := by
    rw [model_builds hIJ hL] at hmod
    exact (Option.some.inj hmod).symm
  subst hm
  refine ⟨?_, ?_, fun a b c => ⟨splitUnd_zName a b c, nameKey_z a b c⟩⟩
  · intro t ht
    obtain ⟨tr, htr, rfl⟩ := List.mem_map.mp ht
    obtain ⟨hi, hj, hl⟩ := mem_triples.mp htr
    exact ⟨tr.2.2, tr.1, tr.2.1, hl, hi, hj, rfl⟩
  · intro con hcon
    simp only [mkModel, List.mem_append] at hcon
    rcases hcon with ((((h | h) | h) | h) | h) | h
    · exact fun t ht a b c he => f2_zbound h ht he
    · exact fun t ht a b c he => f3_zbound h ht he
    · exact fun t ht a b c he => f4_zbound h ht he
    · exact fun t ht a b c he => f5_zbound h ht he
    · exact fun t ht a b c he => f6_zbound h ht he
    · exact fun t ht a b c he => f7_zbound hL h ht he

/-- C7: after a successful solve — any valuation that satisfies every
constraint of the built model, respects the `z` bounds `[0,1]` declared in
`model`, and takes binary values on the integer-categorized `q` variables —
the `z_res` dictionary built by the decoding loop of `main` over the
model's variables assigns to each leader strategy `i` (keyed by the decimal
string of `i`) exactly the leader marginal `Σ_j z[l][i][j]`, the same for
every representative type `l` (an absent key standing for probability 0),
and these decoded probabilities sum to exactly 1 over the leader
strategies.  The loop stores the first nonzero `z` value per key rather
than a sum, but feasibility forces, within each type, all the mass of
column sums onto the single best-response column, so that first value
equals the marginal. -/
theorem c7_decoded_strategy_is_marginal_and_sums_to_one (p : Problem)
    (m : Model) (v : Var → ℚ) (entries : List (Var × ℚ))
    (hIJ : p.I = p.J) (hL : 2 ≤ p.L) (hmod : model p = some m)
    (hsat : ∀ c ∈ m.constraints, constrHolds v c)
    (hzb : ∀ a < p.L, ∀ b < p.J, ∀ c < p.I, 0 ≤ v (Var.z a b c))
    (hqb : ∀ l < p.L, ∀ j < p.J, v (Var.q l j) = 0 ∨ v (Var.q l j) = 1)
    (hent : ∀ e ∈ entries, e.1 ∈ allVars p ∧ e.2 = v e.1)
    (hcomp : ∀ a < p.L, ∀ b < p.J, ∀ c < p.I,
      (Var.z a b c, v (Var.z a b c)) ∈ entries) :
    (∀ i < p.I, ∀ l < p.L,
      (List.lookup (natChars i) (decodeZ entries)).getD 0 =
        ∑ j in Finset.range p.J, v (Var.z l i j)) ∧
    ∑ i in Finset.range p.I,
      (List.lookup (natChars i) (decodeZ entries)).getD 0 = 1 := by
  have hm : m = mkModel p := by
    rw [model_builds hIJ hL] at hmod
    exact (Option.some.inj hmod).symm
  subst hm
  have h1L : 1 < p.L := hL
  have hgetD : ∀ i < p.I,
      (List.lookup (natChars i) (decodeZ entries)).getD 0 =
        ∑ j in Finset.range p.J, v (Var.z 1 i j) := fun i hi =>
    decodeZ_getD_eq hIJ hL hsat hzb hqb hent hcomp hi
  constructor
  · intro i hi l hl
    rw [hgetD i hi]
    exact (sat_f7 hsat hl hi).symm
  · have hsum2 := sat_f2 hsat h1L
    calc ∑ i in Finset.range p.I,
          (List.lookup (natChars i) (decodeZ entries)).getD 0
        = ∑ i in Finset.range p.I, ∑ j in Finset.range p.J,
            v (Var.z 1 i j) :=
          Finset.sum_congr rfl fun i hi =>
            hgetD i (Finset.mem_range.mp hi)
      _ = 1 := hsum2

/-- C5 witness: the objective theorem instantiated at the concrete spec
`wp`. -/
theorem c5_witness :
    wp.I = wp.J ∧ 2 ≤ wp.L ∧ model wp = some (mkModel wp) ∧
    ((mkModel wp).maximize = true ∧
      ∀ v : Var → ℚ, evalTerms v (mkModel wp).objTerms =
        ∑ l in Finset.range wp.L, ∑ i in Finset.range wp.I,
          ∑ j in Finset.range wp.J,
            pGet wp l * rGet wp l i j * v (Var.z l i j)) :=
  ⟨rfl, by decide, model_builds rfl (by decide),
    c5_objective_is_expected_leader_payoff wp (mkModel wp) rfl (by decide)
      (model_builds rfl (by decide))⟩

/-- C6 witness: the big-M theorem instantiated at the concrete spec
`wp`. -/
theorem c6_witness :
    wp.I = wp.J ∧ 2 ≤ wp.L ∧ model wp = some (mkModel wp) ∧
    (∀ l < wp.L, ∀ j < wp.J,
      (∃ con ∈ (mkModel wp).constraints, ∀ v : Var → ℚ,
        constrHolds v con ↔
          0 ≤ v (Var.a l) - ∑ i in Finset.range wp.I,
            cGet wp l i j * ∑ h in Finset.range wp.J, v (Var.z l i h)) ∧
      (∃ con ∈ (mkModel wp).constraints, ∀ v : Var → ℚ,
        constrHolds v con ↔
          v (Var.a l) - ∑ i in Finset.range wp.I,
            cGet wp l i j * ∑ h in Finset.range wp.J, v (Var.z l i h) ≤
            (1 - v (Var.q l j)) * 1000000)) :=
  ⟨rfl, by decide, model_builds rfl (by decide),
    c6_bigM_linkage_inequalities wp (mkModel wp) rfl (by decide)
      (model_builds rfl (by decide))⟩

/-- C8 witness: the fixed-reference consistency theorem instantiated at the
concrete spec `wp`. -/
theorem c8_witness :
    wp.I = wp.J ∧ 2 ≤ wp.L ∧ model wp = some (mkModel wp) ∧
    (∀ l < wp.L, ∀ i < wp.I, ∃ con ∈ (mkModel wp).constraints,
      ∀ v : Var → ℚ,
        constrHolds v con ↔
          ∑ j in Finset.range wp.J, v (Var.z l i j) =
            ∑ j in Finset.range wp.J, v (Var.z 1 i j)) :=
  ⟨rfl, by decide, model_builds rfl (by decide),
    c8_consistency_uses_fixed_reference_type wp (mkModel wp) rfl (by decide)
      (model_builds rfl (by decide))⟩

/-- C10 witness: the naming theorem instantiated at the concrete spec
`wp`. -/
theorem c10_witness :
    wp.I = wp.J ∧ 2 ≤ wp.L ∧ model wp = some (mkModel wp) ∧
    ((∀ t ∈ (mkModel wp).objTerms, ∃ l i j,
        l < wp.L ∧ i < wp.I ∧ j < wp.J ∧
        t = LinTerm.mk (pGet wp l * rGet wp l i j) (Var.z l i j)) ∧
      (∀ con ∈ (mkModel wp).constraints,
        ∀ t ∈ con.lhs.terms ++ con.rhs.terms,
        ∀ a b c : Nat, t.var = Var.z a b c →
          a < wp.L ∧ b < wp.I ∧ c < wp.J) ∧
      (∀ a b c : Nat,
        splitUnd (varName (Var.z a b c)) =
          [['z'], natChars a, natChars b, natChars c] ∧
        nameKey (varName (Var.z a b c)) = natChars b)) :=
  ⟨rfl, by decide, model_builds rfl (by decide),
    c10_z_names_encode_leader_index wp (mkModel wp) rfl (by decide)
      (model_builds rfl (by decide))⟩

/-- C7 witness: the decoder theorem at the concrete spec `wp`, the feasible
valuation `wv` (leader plays strategy 0, both types best-respond with
strategy 0) and the full variable list `wEntries`. -/
theorem c7_witness :
    wp.I = wp.J ∧ 2 ≤ wp.L ∧ model wp = some (mkModel wp) ∧
    (∀ c ∈ (mkModel wp).constraints, constrHolds wv c) ∧
    (∀ a < wp.L, ∀ b < wp.J, ∀ c < wp.I, 0 ≤ wv (Var.z a b c)) ∧
    (∀ l < wp.L, ∀ j < wp.J, wv (Var.q l j) = 0 ∨ wv (Var.q l j) = 1) ∧
    (∀ e ∈ wEntries, e.1 ∈ allVars wp ∧ e.2 = wv e.1) ∧
    (∀ a < wp.L, ∀ b < wp.J, ∀ c < wp.I,
      (Var.z a b c, wv (Var.z a b c)) ∈ wEntries) ∧
    ((∀ i < wp.I, ∀ l < wp.L,
        (List.lookup (natChars i) (decodeZ wEntries)).getD 0 =
          ∑ j in Finset.range wp.J, wv (Var.z l i j)) ∧
      ∑ i in Finset.range wp.I,
        (List.lookup (natChars i) (decodeZ wEntries)).getD 0 = 1) := by
  have hIJ : wp.I = wp.J := rfl
  have hL : 2 ≤ wp.L := by decide
  have hmod : model wp = some (mkModel wp) := model_builds hIJ hL
  have hsat : ∀ c ∈ (mkModel wp).constraints, constrHolds wv c := by
    intro c hc
    fin_cases hc <;>
      norm_num [constrHolds, Affine.eval, evalTerms, wv, M, wp, cGet,
        show pairs 2 2 = [(0, 0), (0, 1), (1, 0), (1, 1)] from rfl,
        show List.range 2 = [0, 1] from rfl,
        List.getD_cons_zero, List.getD_cons_succ]
  have hzb : ∀ a < wp.L, ∀ b < wp.J, ∀ c < wp.I, 0 ≤ wv (Var.z a b c) := by
    decide
  have hqb : ∀ l < wp.L, ∀ j < wp.J,
      wv (Var.q l j) = 0 ∨ wv (Var.q l j) = 1 := by decide
  have hent : ∀ e ∈ wEntries, e.1 ∈ allVars wp ∧ e.2 = wv e.1 := by
    intro e he
    obtain ⟨w, hw, rfl⟩ := List.mem_map.mp he
    exact ⟨hw, rfl⟩
  have hcomp : ∀ a < wp.L, ∀ b < wp.J, ∀ c < wp.I,
      (Var.z a b c, wv (Var.z a b c)) ∈ wEntries :=
    fun a ha b hb c hc =>
      List.mem_map_of_mem _ (z_mem_allVars ha hb hc)
  exact ⟨hIJ, hL, hmod, hsat, hzb, hqb, hent, hcomp,
    c7_decoded_strategy_is_marginal_and_sums_to_one wp (mkModel wp) wv
      wEntries hIJ hL hmod hsat hzb hqb hent hcomp⟩
